import Mathlib

/-!
Verification of the mirafetch utility module (src/util.rs): the colored-art
transcoder (`TryFrom<AsciiArtUnprocessed> for AsciiArt`) and the byte-size
formatter (`bytecount_format`).  Rust strings are modelled as `List Char`,
machine integers as `Nat` with explicit bounds where overflow matters,
fallible paths as `Option` / explicit outcome types.
-/

set_option maxHeartbeats 1600000

namespace Mirafetch

/-- Terminal colors, after the `ColorRemote` mirror of `crossterm`'s `Color`
(util.rs 149-212). -/
inductive Color where
  | Reset | Black | DarkGrey | Red | DarkRed | Green | DarkGreen
  | Yellow | DarkYellow | Blue | DarkBlue | Magenta | DarkMagenta
  | Cyan | DarkCyan | White | Grey
  | Rgb (r g b : Nat)
  | AnsiValue (n : Nat)
  deriving DecidableEq

/-- The processed art, after `pub struct AsciiArt` (util.rs 55-61).  `art`
holds (palette index, text chunk) segments; the index is a `u8` value and
`height` a `u16` value, kept in range by construction. -/
structure AsciiArt where
  name : List (List Char)
  colors : List Color
  width : Nat
  height : Nat
  art : List (Nat × List Char)
  deriving DecidableEq

/-- The raw, deserialized art definition, after `struct AsciiArtUnprocessed`
(util.rs 65-71). -/
structure AsciiArtUnprocessed where
  name : List (List Char)
  colors : List Color
  width : Nat
  art : List Char
  deriving DecidableEq

/-- One attempt of the regex `ascii_regex` (util.rs 73), pattern
dollar, open brace, literal c, a possibly empty maximal run of digits, close
brace, at the head of the text.  Returns the captured digit run and the rest
of the text after the match.  The digit class is modelled as ASCII digits
(the only digits whose later `u8` parse could succeed).  No backtracking is
needed: a close brace is not a digit, so the greedy run is the only
candidate. -/
def matchMarker : List Char → Option (List Char × List Char)
  | '$' :: '{' :: 'c' :: s =>
    match s.dropWhile Char.isDigit with
    | '}' :: rest => some (s.takeWhile Char.isDigit, rest)
    | _ => none
  | _ => none

/-- Left-to-right, non-overlapping scan of the text for `ascii_regex`
matches, as performed by both `captures_iter` (util.rs 78-79) and `split`
(util.rs 90-91): the chunk before the first match, together with, for every
match in order, its captured digit run and the chunk that follows it up to
the next match.  The fuel argument (always at least the text length) makes
the recursion structural, so concrete instances reduce in the kernel. -/
def scanArtAux : Nat → List Char → List Char × List (List Char × List Char)
  | fuel + 1, c :: s =>
    match matchMarker (c :: s) with
    | some (ds, rest) =>
      let r := scanArtAux fuel rest
      ([], (ds, r.1) :: r.2)
    | none =>
      let r := scanArtAux fuel s
      (c :: r.1, r.2)
  | _, [] => ([], [])
  | 0, _ :: _ => ([], [])

/-- The full scan of a template. -/
def scanArt (s : List Char) : List Char × List (List Char × List Char) :=
  scanArtAux s.length s

/-- The capture groups found by `captures_iter`, in scan order
(util.rs 78-84). -/
def markerDigitsList (s : List Char) : List (List Char) :=
  (scanArt s).2.map Prod.fst

/-- The pieces produced by `ascii_regex.split` (util.rs 90-92): the text
before the first match followed by the text after each match.  Always one
more piece than there are matches. -/
def chunksOf (s : List Char) : List (List Char) :=
  (scanArt s).1 :: (scanArt s).2.map Prod.snd

/-- Numeric value of a run of ASCII digits, as accumulated by `str::parse`. -/
def digitsToNat (ds : List Char) : Nat :=
  ds.foldl (fun a c => 10 * a + (c.toNat - 48)) 0

/-- Rust `str::parse::<u8>` on a digit run (util.rs 81-86): fails on an empty
run and on a value that does not fit in `u8`.  (Rust detects overflow during
accumulation; over digit-only input that is equivalent to the final value
exceeding 255, since the accumulator never decreases.) -/
def parseU8 (ds : List Char) : Option Nat :=
  if ds = [] then none
  else if digitsToNat ds ≤ 255 then some (digitsToNat ds) else none

/-- Collecting the index parses through `map(Result::unwrap)` (util.rs 80-89):
the whole collection aborts (modelled `none`) as soon as one parse fails —
the unwrap of the error is a process-terminating panic, not a returned
error. -/
def parseAll : List (List Char) → Option (List Nat)
  | [] => some []
  | ds :: rest =>
    match parseU8 ds with
    | none => none
    | some n =>
      match parseAll rest with
      | none => none
      | some ns => some (n :: ns)

/-- Rust `str::lines().count()` (util.rs 77): one line per newline character,
plus a final partial line when the text is non-empty and lacks a trailing
newline. -/
def linesCount (s : List Char) : Nat :=
  s.count '\n' + (if s = [] then 0 else if s.getLast? = some '\n' then 0 else 1)

/-- Outcome of `TryFrom<AsciiArtUnprocessed> for AsciiArt` (util.rs 75-108):
a normal return, the `Err` propagated to the caller when the line count does
not fit in `u16` (the try on util.rs 77), or the process-terminating panic
raised by `Result::unwrap` while collecting the marker indices
(util.rs 88). -/
inductive TryFromResult where
  | ok (a : AsciiArt)
  | errHeightOverflow
  | panicked
  deriving DecidableEq

/-- The transcoder `try_from` (util.rs 76-108).  The height check runs first
(util.rs 77); then the marker digit runs are parsed and unwrapped
(util.rs 78-89); the split chunks minus the first one (`skip(1)`,
util.rs 93) are zipped with the parsed indices (util.rs 95); names are
lower-cased (util.rs 97-102). -/
def tryFrom (v : AsciiArtUnprocessed) : TryFromResult :=
  if 65535 < linesCount v.art then .errHeightOverflow
  else
    match parseAll (markerDigitsList v.art) with
    | none => .panicked
    | some color_idx =>
      .ok ⟨v.name.map (fun nm => nm.map Char.toLower), v.colors, v.width,
        linesCount v.art, List.zip color_idx ((chunksOf v.art).drop 1)⟩

/-- The literal template text of a marker whose captured digit run is `ds`. -/
def markerText (ds : List Char) : List Char :=
  '$' :: '{' :: 'c' :: (ds ++ ['}'])

/-- Segment texts concatenated in order, each preceded by its original
marker. -/
def reconstructSegs : List (List Char × List Char) → List Char
  | [] => []
  | p :: rest => markerText p.1 ++ p.2 ++ reconstructSegs rest

/-- The unit table `units` (util.rs 124). -/
def unitsList : List (List Char) :=
  ["bytes".toList, "KiB".toList, "MiB".toList, "GiB".toList, "TiB".toList,
    "PiB".toList, "EiB".toList]

/-- The unit-selection loop of `bytecount_format` (util.rs 125-126) at an
unsigned width wide enough for every shift amount in the loop (e.g. `u128`):
the first `val` in the list with `i` shifted right by `10 * (val + 1)` equal
to zero. -/
def findUnit (i : Nat) : List Nat → Option Nat
  | [] => none
  | val :: rest =>
    if i >>> (10 * (val + 1)) = 0 then some val else findUnit i rest

/-- Unit selection over the full table. -/
def unitIdx (i : Nat) : Option Nat :=
  findUnit i [0, 1, 2, 3, 4, 5, 6]

/-- Decimal digits of `n`, most significant first, as rendered by Rust's
display of integers.  Fuel-based to keep the recursion structural. -/
def natDecimalAux : Nat → Nat → List Char
  | 0, _ => []
  | fuel + 1, n =>
    if n < 10 then [Nat.digitChar n]
    else natDecimalAux fuel (n / 10) ++ [Nat.digitChar (n % 10)]

/-- Decimal rendering of a natural number. -/
def natDecimal (n : Nat) : List Char :=
  natDecimalAux (n + 1) n

/-- Round `n / d` to the nearest integer, ties to even — the rounding used by
Rust's fixed-precision float formatting on an exactly represented value. -/
def roundHalfEven (n d : Nat) : Nat :=
  if d < 2 * (n % d) then n / d + 1
  else if 2 * (n % d) < d then n / d
  else n / d + n / d % 2

/-- Exactly `p` decimal digits of `x`, zero-padded, most significant first
(`x < 10 ^ p` at every use). -/
def padDigits (p x : Nat) : List Char :=
  (List.range p).map (fun k => Nat.digitChar (x / 10 ^ (p - 1 - k) % 10))

/-- Fixed-point rendering of the exact value `n / d` with `p` fractional
digits.  This models the formatting with precision `p` of the f64 quotient
(util.rs 127-137): for `n < 2 ^ 53` and `d` a power of two the f64
conversion and division are exact, and the formatter then rounds the exact
value half-to-even to `p` fractional digits. -/
def fixedDecimal (p n d : Nat) : List Char :=
  natDecimal (roundHalfEven (n * 10 ^ p) d / 10 ^ p) ++
    '.' :: padDigits p (roundHalfEven (n * 10 ^ p) d % 10 ^ p)

/-- The value part of `bytecount_format`'s output (util.rs 127-137): at
precision 0 the integer `i` shifted right by `10 * val` (that integer is
below 1024 at the call site, so its f64 round-trip and zero-precision
formatting print exactly its decimal digits); at positive precision the f64
quotient of `i` by `1024 ^ val = 2 ^ (10 * val)` rendered with `precision`
fractional digits. -/
def renderValue (i precision val : Nat) : List Char :=
  if precision = 0 then natDecimal (i >>> (10 * val))
  else fixedDecimal precision i (2 ^ (10 * val))

/-- `bytecount_format` (util.rs 114-143) at an unsigned width wide enough for
every shift in the loop.  `none` models the final unconditional panic
(util.rs 142) reached when no unit matches. -/
def bytecount_format (i precision : Nat) : Option (List Char) :=
  match unitIdx i with
  | some val => some (renderValue i precision val ++ ' ' :: unitsList.getD val [])
  | none => none

/-- Right shift as executed by release-mode Rust on `u64`: the shift amount
is reduced mod 64.  (Debug mode instead aborts on a shift amount of 64 or
more; on the inputs of interest both behaviors end in a panic, see the C9
theorem.) -/
def shr64 (i s : Nat) : Nat :=
  i >>> (s % 64)

/-- The unit-selection loop instantiated at `T = u64`: the shift by
`10 * (6 + 1) = 70` exceeds the operand width and is masked to 6. -/
def findUnit64 (i : Nat) : List Nat → Option Nat
  | [] => none
  | val :: rest =>
    if shr64 i (10 * (val + 1)) = 0 then some val else findUnit64 i rest

/-- `bytecount_format` instantiated at `T = u64` with release-mode shift
semantics.  (The shifts inside `renderValue` are at most 60, so the generic
rendering is unchanged.) -/
def bytecount_format_u64 (i precision : Nat) : Option (List Char) :=
  match findUnit64 i [0, 1, 2, 3, 4, 5, 6] with
  | some val => some (renderValue i precision val ++ ' ' :: unitsList.getD val [])
  | none => none

/-- Written from the spec's words (section 4.3): the smallest unit index `u`
with `magnitude < 1024 ^ (u + 1)`, to be compared with the loop's
selection. -/
def specSmallestUnit (i : Nat) : Nat :=
  if i < 1024 then 0
  else if i < 1024 ^ 2 then 1
  else if i < 1024 ^ 3 then 2
  else if i < 1024 ^ 4 then 3
  else if i < 1024 ^ 5 then 4
  else if i < 1024 ^ 6 then 5
  else 6

/-- The fractional digits of a rendered size string: the characters strictly
between the decimal point and the following space. -/
def fracDigits (o : Option (List Char)) : List Char :=
  (((o.getD []).dropWhile (fun c => c != '.')).drop 1).takeWhile (fun c => c != ' ')

/-! Lemmas about the marker scanner. -/

theorem matchMarker_some {l ds rest : List Char}
    (h : matchMarker l = some (ds, rest)) :
    l = markerText ds ++ rest ∧ ∀ c ∈ ds, c.isDigit = true := by
  unfold matchMarker at h
  split at h
  · rename_i s
    split at h
    · rename_i rest' hdrop
      simp only [Option.some.injEq, Prod.mk.injEq] at h
      obtain ⟨h1, h2⟩ := h
      subst h1
      subst h2
      have hs := List.takeWhile_append_dropWhile Char.isDigit s
      rw [hdrop] at hs
      constructor
      · simp only [markerText, List.cons_append, List.append_assoc,
          List.singleton_append]
        exact congrArg (fun z => '$' :: '{' :: 'c' :: z) hs.symm
      · intro c hc
        exact List.mem_takeWhile_imp hc
    · simp at h
  · simp at h

theorem matchMarker_length {l ds rest : List Char}
    (h : matchMarker l = some (ds, rest)) : rest.length + 4 ≤ l.length := by
  obtain ⟨hl, -⟩ := matchMarker_some h
  subst hl
  simp [markerText]
  try omega

theorem matchMarker_brace (y : List Char) :
    matchMarker ('$' :: '{' :: 'c' :: '}' :: y) = some ([], y) := rfl

theorem scanArtAux_nil (f : Nat) : scanArtAux f [] = ([], []) := by
  cases f <;> rfl

theorem scanArtAux_congr : ∀ (f g : Nat) (s : List Char), s.length ≤ f →
    s.length ≤ g → scanArtAux f s = scanArtAux g s := by
  intro f
  induction f with
  | zero =>
    intro g s hf _
    have : s = [] := List.length_eq_zero.mp (Nat.le_zero.mp hf)
    subst this
    rw [scanArtAux_nil, scanArtAux_nil]
  | succ f ih =>
    intro g s hf hg
    match s with
    | [] => rw [scanArtAux_nil, scanArtAux_nil]
    | c :: t =>
      simp only [List.length_cons] at hf hg
      match g with
      | 0 => omega
      | g + 1 =>
        rcases hm : matchMarker (c :: t) with - | ⟨ds, rest⟩
        · simp only [scanArtAux, hm]
          rw [ih g t (by omega) (by omega)]
        · have hlen := matchMarker_length hm
          simp only [List.length_cons] at hlen
          simp only [scanArtAux, hm]
          rw [ih g rest (by omega) (by omega)]

theorem scanArt_nil : scanArt [] = ([], []) := rfl

theorem scanArt_cons_marker {c : Char} {t ds rest : List Char}
    (hm : matchMarker (c :: t) = some (ds, rest)) :
    scanArt (c :: t) = ([], (ds, (scanArt rest).1) :: (scanArt rest).2) := by
  have hlen := matchMarker_length hm
  simp only [List.length_cons] at hlen
  unfold scanArt
  simp only [List.length_cons, scanArtAux, hm]
  rw [scanArtAux_congr t.length rest.length rest (by omega) (le_refl _)]

theorem scanArt_cons_lit {c : Char} {t : List Char}
    (hm : matchMarker (c :: t) = none) :
    scanArt (c :: t) = (c :: (scanArt t).1, (scanArt t).2) := by
  unfold scanArt
  simp only [List.length_cons, scanArtAux, hm]

theorem scanArt_reconstruct (s : List Char) :
    (scanArt s).1 ++ reconstructSegs (scanArt s).2 = s := by
  suffices H : ∀ n (s : List Char), s.length ≤ n →
      (scanArt s).1 ++ reconstructSegs (scanArt s).2 = s by
    exact H s.length s (le_refl _)
  intro n
  induction n with
  | zero =>
    intro s hs
    have : s = [] := List.length_eq_zero.mp (Nat.le_zero.mp hs)
    subst this
    simp [scanArt_nil, reconstructSegs]
  | succ n ih =>
    intro s hs
    match s with
    | [] => simp [scanArt_nil, reconstructSegs]
    | c :: t =>
      simp only [List.length_cons] at hs
      rcases hm : matchMarker (c :: t) with - | ⟨ds, rest⟩
      · rw [scanArt_cons_lit hm]
        simp only [List.cons_append]
        rw [ih t (by omega)]
      · obtain ⟨hl, -⟩ := matchMarker_some hm
        have hlen := matchMarker_length hm
        simp only [List.length_cons] at hlen
        rw [scanArt_cons_marker hm]
        simp only [reconstructSegs, List.nil_append, List.append_assoc]
        rw [ih rest (by omega)]
        exact hl.symm

/-! Lemmas about index parsing and the transcoder. -/

theorem parseAll_length : ∀ {l : List (List Char)} {ns : List Nat},
    parseAll l = some ns → ns.length = l.length := by
  intro l
  induction l with
  | nil =>
    intro ns h
    simp only [parseAll, Option.some.injEq] at h
    subst h
    rfl
  | cons ds rest ih =>
    intro ns h
    unfold parseAll at h
    split at h
    · simp at h
    · split at h
      · simp at h
      · rename_i ns' hns'
        simp only [Option.some.injEq] at h
        subst h
        simp [ih hns']

theorem parseAll_none_of_mem_nil : ∀ {l : List (List Char)},
    [] ∈ l → parseAll l = none := by
  intro l
  induction l with
  | nil => intro h; cases h
  | cons ds rest ih =>
    intro h
    rcases List.mem_cons.mp h with h1 | h2
    · subst h1
      rfl
    · unfold parseAll
      rcases hp : parseU8 ds with - | n
      · rfl
      · rw [ih h2]

theorem tryFrom_ok {v : AsciiArtUnprocessed} {a : AsciiArt}
    (h : tryFrom v = .ok a) :
    linesCount v.art ≤ 65535 ∧
    ∃ ci, parseAll (markerDigitsList v.art) = some ci ∧
      a = ⟨v.name.map (fun nm => nm.map Char.toLower), v.colors, v.width,
        linesCount v.art, List.zip ci ((chunksOf v.art).drop 1)⟩ := by
  unfold tryFrom at h
  split at h
  · simp at h
  · rename_i hle
    split at h
    · simp at h
    · rename_i ci hci
      injection h with h'
      exact ⟨by omega, ci, hci, h'.symm⟩

/-- C1: whenever the transcoder returns a result, it has discarded the first
split chunk and produced exactly `min(markers, chunks after the first)`
segments — which always equals the marker count — and each segment's text is
the chunk that followed its marker, in scan order. -/
theorem C1_segment_counts (u : AsciiArtUnprocessed) (a : AsciiArt)
    (h : tryFrom u = .ok a) :
    a.art.length =
      min (markerDigitsList u.art).length ((chunksOf u.art).length - 1) ∧
    a.art.length = (markerDigitsList u.art).length ∧
    a.art.map Prod.snd = (chunksOf u.art).drop 1 := by
  obtain ⟨-, ci, hci, rfl⟩ := tryFrom_ok h
  have hlen : ci.length = (markerDigitsList u.art).length := parseAll_length hci
  have hmlen : (markerDigitsList u.art).length = (scanArt u.art).2.length := by
    simp [markerDigitsList]
  have hclen : (chunksOf u.art).length = (scanArt u.art).2.length + 1 := by
    simp [chunksOf]
  have hchunks_len : ((chunksOf u.art).drop 1).length = (scanArt u.art).2.length := by
    show ((scanArt u.art).2.map Prod.snd).length = _
    simp
  have hz : (List.zip ci ((chunksOf u.art).drop 1)).length = (scanArt u.art).2.length := by
    rw [List.length_zip, hlen, hmlen, hchunks_len]
    exact inf_idem _
  refine ⟨?_, ?_, ?_⟩
  · show (List.zip ci ((chunksOf u.art).drop 1)).length = _
    rw [hz, hmlen, hclen]
    simp
  · show (List.zip ci ((chunksOf u.art).drop 1)).length = _
    rw [hz, hmlen]
  · show List.map Prod.snd (List.zip ci ((chunksOf u.art).drop 1)) = _
    exact List.map_snd_zip ci _ (by rw [hchunks_len, hlen, hmlen])

theorem C1_witness :
    ([(1, "X".toList), (2, "Y".toList)] : List (Nat × List Char)).length =
      min (markerDigitsList ("${c1}X${c2}Y".toList)).length
        ((chunksOf ("${c1}X${c2}Y".toList)).length - 1) ∧
    ([(1, "X".toList), (2, "Y".toList)] : List (Nat × List Char)).length =
      (markerDigitsList ("${c1}X${c2}Y".toList)).length ∧
    ([(1, "X".toList), (2, "Y".toList)] : List (Nat × List Char)).map Prod.snd =
      (chunksOf ("${c1}X${c2}Y".toList)).drop 1 :=
  C1_segment_counts ⟨[], [], 0, "${c1}X${c2}Y".toList⟩
    ⟨[], [], 0, 1, [(1, "X".toList), (2, "Y".toList)]⟩ (by decide)

/-- C10: the regex split always yields exactly one more chunk than there are
markers, so on every successful transcode the zip truncates nothing: the
segment count equals the marker count, the first components are exactly the
parsed indices, and the second components are exactly the chunks after the
first. -/
theorem C10_zip_never_truncates (u : AsciiArtUnprocessed) (a : AsciiArt)
    (h : tryFrom u = .ok a) :
    (chunksOf u.art).length = (markerDigitsList u.art).length + 1 ∧
    a.art.length = (markerDigitsList u.art).length ∧
    parseAll (markerDigitsList u.art) = some (a.art.map Prod.fst) ∧
    a.art.map Prod.snd = (chunksOf u.art).drop 1 := by
  obtain ⟨-, ci, hci, rfl⟩ := tryFrom_ok h
  have hlen : ci.length = (markerDigitsList u.art).length := parseAll_length hci
  have hmlen : (markerDigitsList u.art).length = (scanArt u.art).2.length := by
    simp [markerDigitsList]
  have hclen : (chunksOf u.art).length = (scanArt u.art).2.length + 1 := by
    simp [chunksOf]
  have hchunks_len : ((chunksOf u.art).drop 1).length = (scanArt u.art).2.length := by
    show ((scanArt u.art).2.map Prod.snd).length = _
    simp
  have hz : (List.zip ci ((chunksOf u.art).drop 1)).length = (scanArt u.art).2.length := by
    rw [List.length_zip, hlen, hmlen, hchunks_len]
    exact inf_idem _
  refine ⟨by omega, ?_, ?_, ?_⟩
  · show (List.zip ci ((chunksOf u.art).drop 1)).length = _
    rw [hz, hmlen]
  · have hfst : List.map Prod.fst (List.zip ci ((chunksOf u.art).drop 1)) = ci :=
      List.map_fst_zip ci _ (by rw [hchunks_len, hlen, hmlen])
    show parseAll (markerDigitsList u.art) =
      some (List.map Prod.fst (List.zip ci ((chunksOf u.art).drop 1)))
    rw [hfst]
    exact hci
  · show List.map Prod.snd (List.zip ci ((chunksOf u.art).drop 1)) = _
    exact List.map_snd_zip ci _ (by rw [hchunks_len, hlen, hmlen])

theorem C10_witness :
    (chunksOf ("${c0}Z".toList)).length =
      (markerDigitsList ("${c0}Z".toList)).length + 1 ∧
    ([(0, "Z".toList)] : List (Nat × List Char)).length =
      (markerDigitsList ("${c0}Z".toList)).length ∧
    parseAll (markerDigitsList ("${c0}Z".toList)) =
      some (([(0, "Z".toList)] : List (Nat × List Char)).map Prod.fst) ∧
    ([(0, "Z".toList)] : List (Nat × List Char)).map Prod.snd =
      (chunksOf ("${c0}Z".toList)).drop 1 :=
  C10_zip_never_truncates ⟨[], [], 0, "${c0}Z".toList⟩
    ⟨[], [], 0, 1, [(0, "Z".toList)]⟩ (by decide)

/-- C8: concatenating every segment text in order, each preceded by its
original marker, reconstructs the template minus its preamble chunk (the
scan's first component), and the transcoder's segment texts are exactly the
scanned chunks. -/
theorem C8_round_trip (u : AsciiArtUnprocessed) (a : AsciiArt)
    (h : tryFrom u = .ok a) :
    (scanArt u.art).1 ++ reconstructSegs (scanArt u.art).2 = u.art ∧
    a.art.map Prod.snd = (scanArt u.art).2.map Prod.snd := by
  obtain ⟨-, ci, hci, rfl⟩ := tryFrom_ok h
  have hlen : ci.length = (markerDigitsList u.art).length := parseAll_length hci
  have hmlen : (markerDigitsList u.art).length = (scanArt u.art).2.length := by
    simp [markerDigitsList]
  refine ⟨scanArt_reconstruct u.art, ?_⟩
  show List.map Prod.snd (List.zip ci ((chunksOf u.art).drop 1)) = _
  exact List.map_snd_zip ci _ (by simp [chunksOf, hlen, hmlen])

theorem C8_witness :
    (scanArt ("pre${c3}AB${c10}CD".toList)).1 ++
      reconstructSegs (scanArt ("pre${c3}AB${c10}CD".toList)).2 =
      "pre${c3}AB${c10}CD".toList ∧
    ([(3, "AB".toList), (10, "CD".toList)] : List (Nat × List Char)).map Prod.snd =
      (scanArt ("pre${c3}AB${c10}CD".toList)).2.map Prod.snd :=
  C8_round_trip ⟨[], [], 0, "pre${c3}AB${c10}CD".toList⟩
    ⟨[], [], 0, 1, [(3, "AB".toList), (10, "CD".toList)]⟩ (by decide)

/-- C2: on a template containing a marker whose digits exceed 255, the
transcoder does not return a `MalformedMarker` error to its caller as the
claim states — the failed parse is unwrapped inside the iterator
(util.rs 88) and the call panics (the `panicked` outcome), a
process-terminating fault. -/
theorem C2_overflow_marker_panics :
    tryFrom ⟨[], [], 0, "${c999}".toList⟩ = .panicked := by decide

theorem isDigit_ne_dollar {c : Char} (h : c.isDigit = true) : c ≠ '$' := by
  intro he
  subst he
  exact absurd h (by decide)

theorem isDigit_ne_rbrace {c : Char} (h : c.isDigit = true) : c ≠ '}' := by
  intro he
  subst he
  exact absurd h (by decide)

theorem no_dollar_in_front {m : List Char} : ∀ (p r : List Char),
    (∃ x y, x ++ '$' :: m ++ y = p ++ r) → (∀ a ∈ p, a ≠ '$') →
    ∃ x y, x ++ '$' :: m ++ y = r := by
  intro p
  induction p with
  | nil =>
    intro r h _
    simpa using h
  | cons a p ih =>
    intro r h hp
    obtain ⟨x, y, hxy⟩ := h
    match x with
    | [] =>
      simp only [List.nil_append, List.cons_append, List.cons.injEq] at hxy
      exact absurd hxy.1.symm (hp a (List.mem_cons_self a p))
    | b :: x' =>
      simp only [List.cons_append, List.cons.injEq] at hxy
      exact ih r ⟨x', y, hxy.2⟩ (fun c hc => hp c (List.mem_cons_of_mem a hc))

/-- An occurrence of the token dollar-brace-c-brace anywhere in the template
always surfaces as a marker whose captured digit run is empty: the regex
requires no digits, and markers cannot hide an occurrence inside themselves
because a dollar sign occurs only at a marker's first position. -/
theorem empty_digits_of_brace_token (s : List Char)
    (h : ∃ x y, x ++ "${c}".toList ++ y = s) :
    [] ∈ markerDigitsList s := by
  suffices H : ∀ n (s : List Char), s.length ≤ n →
      (∃ x y, x ++ "${c}".toList ++ y = s) → [] ∈ markerDigitsList s by
    exact H s.length s (le_refl _) h
  intro n
  induction n with
  | zero =>
    intro s hs hex
    have : s = [] := List.length_eq_zero.mp (Nat.le_zero.mp hs)
    subst this
    obtain ⟨x, y, hxy⟩ := hex
    simp at hxy
  | succ n ih =>
    intro s hs hex
    obtain ⟨x, y, hxy⟩ := hex
    match s with
    | [] => simp at hxy
    | c :: t =>
      simp only [List.length_cons] at hs
      rcases hm : matchMarker (c :: t) with - | ⟨ds, rest⟩
      · -- no marker at the head: the occurrence cannot start here either
        have hmd : markerDigitsList (c :: t) = markerDigitsList t := by
          unfold markerDigitsList
          rw [scanArt_cons_lit hm]
        rw [hmd]
        match x with
        | [] =>
          exfalso
          have hteq : c :: t = '$' :: '{' :: 'c' :: '}' :: y := by
            rw [← hxy]
            rfl
          rw [hteq] at hm
          rw [matchMarker_brace y] at hm
          simp at hm
        | b :: x' =>
          simp only [List.cons_append, List.cons.injEq] at hxy
          exact ih t (by omega) ⟨x', y, hxy.2⟩
      · obtain ⟨hl, hds⟩ := matchMarker_some hm
        have hlen := matchMarker_length hm
        simp only [List.length_cons] at hlen
        have hmd : markerDigitsList (c :: t) = ds :: markerDigitsList rest := by
          unfold markerDigitsList
          rw [scanArt_cons_marker hm]
          rfl
        rw [hmd]
        match ds, hds with
        | [], _ => exact List.mem_cons_self _ _
        | d :: ds', hds =>
          have hd : d.isDigit = true := hds d (List.mem_cons_self d ds')
          apply List.mem_cons_of_mem
          apply ih rest (by omega)
          match x with
          | [] =>
            exfalso
            have hteq : c :: t = '$' :: '{' :: 'c' :: '}' :: y := by
              rw [← hxy]
              rfl
            rw [hteq, matchMarker_brace y] at hm
            simp at hm
          | b :: x' =>
            simp only [List.cons_append, List.cons.injEq] at hxy
            have h5 := hl
            simp only [markerText, List.cons_append, List.append_assoc,
              List.cons.injEq] at h5
            have ht : t = ('{' :: 'c' :: (d :: ds' ++ ['}'])) ++ rest := by
              rw [h5.2]
              simp [List.append_assoc]
            apply no_dollar_in_front ('{' :: 'c' :: (d :: ds' ++ ['}'])) rest
            · exact ⟨x', y, by rw [← ht]; exact hxy.2⟩
            · intro a ha
              simp only [List.cons_append, List.mem_cons, List.mem_append,
                List.mem_singleton] at ha
              rcases ha with h1 | h1 | h1 | h1 | h1 | h1
              · subst h1; decide
              · subst h1; decide
              · subst h1; exact isDigit_ne_dollar hd
              · exact isDigit_ne_dollar (hds a (List.mem_cons_of_mem d h1))
              · subst h1; decide
              · cases h1

/-- C3's counterexample: in the template consisting of exactly the token
dollar-brace-c-brace, the token IS matched as a marker (one capture, with an
empty digit run), no chunk retains its text, and transcoding panics — it is
not passed through as literal text, and it does fail. -/
theorem C3_counterexample :
    markerDigitsList ("${c}".toList) = [[]] ∧
    chunksOf ("${c}".toList) = [[], []] ∧
    tryFrom ⟨[], [], 0, "${c}".toList⟩ = .panicked := by decide

/-- C3 as amended: a token of the form dollar-brace-c-brace IS recognized as
a marker (the regex allows an empty digit run); its empty digit run fails
the `u8` parse and the failure is unwrapped, so any template containing the
token panics (whenever the earlier height check passes) instead of treating
it as literal chunk text. -/
theorem C3_brace_token_panics (u : AsciiArtUnprocessed)
    (hx : ∃ x y, x ++ "${c}".toList ++ y = u.art)
    (hh : linesCount u.art ≤ 65535) :
    tryFrom u = .panicked := by
  have hmem := empty_digits_of_brace_token u.art hx
  have hnone : parseAll (markerDigitsList u.art) = none :=
    parseAll_none_of_mem_nil hmem
  unfold tryFrom
  rw [if_neg (by omega), hnone]

theorem C3_witness :
    tryFrom ⟨[], [], 0, "ab${c}cd".toList⟩ = .panicked :=
  C3_brace_token_panics ⟨[], [], 0, "ab${c}cd".toList⟩
    ⟨"ab".toList, "cd".toList, by decide⟩ (by decide)

/-! Lemmas about the byte-size formatter. -/

theorem shiftr_eq_zero_iff (i k : Nat) : (i >>> k = 0) ↔ i < 2 ^ k := by
  rw [Nat.shiftRight_eq_div_pow]
  constructor
  · intro h
    by_contra hlt
    push_neg at hlt
    have h1 : 1 ≤ i / 2 ^ k :=
      (Nat.one_le_div_iff (Nat.pow_pos (by norm_num))).mpr hlt
    omega
  · exact Nat.div_eq_of_lt

theorem pow1024 (u : Nat) : (1024 : Nat) ^ u = 2 ^ (10 * u) := by
  rw [show (1024 : Nat) = 2 ^ 10 by norm_num, ← pow_mul]

theorem unitIdx_eq_spec (i : Nat) (h : i < 1024 ^ 7) :
    unitIdx i = some (specSmallestUnit i) := by
  unfold unitIdx specSmallestUnit
  simp only [findUnit, shiftr_eq_zero_iff]
  norm_num at h ⊢
  split_ifs <;> rfl

theorem unitIdx_none (i : Nat) (h : 1024 ^ 7 ≤ i) : unitIdx i = none := by
  unfold unitIdx
  simp only [findUnit, shiftr_eq_zero_iff]
  norm_num at h ⊢
  split_ifs <;> first | rfl | omega

theorem specSmallestUnit_le (i : Nat) : specSmallestUnit i ≤ 6 := by
  unfold specSmallestUnit
  split_ifs <;> omega

theorem specSmallestUnit_lt (i : Nat) (h : i < 1024 ^ 7) :
    i < 1024 ^ (specSmallestUnit i + 1) := by
  unfold specSmallestUnit
  split_ifs <;> norm_num at h ⊢ <;> omega

theorem specSmallestUnit_least (i w : Nat) (h : w < specSmallestUnit i) :
    1024 ^ (w + 1) ≤ i := by
  unfold specSmallestUnit at h
  split_ifs at h <;> interval_cases w <;> norm_num at * <;> omega

theorem digitChar_isDigit {k : Nat} (h : k < 10) :
    (Nat.digitChar k).isDigit = true := by
  interval_cases k <;> decide

theorem natDecimalAux_digits : ∀ (fuel n : Nat), ∀ c ∈ natDecimalAux fuel n,
    c.isDigit = true := by
  intro fuel
  induction fuel with
  | zero =>
    intro n c hc
    simp [natDecimalAux] at hc
  | succ f ih =>
    intro n c hc
    unfold natDecimalAux at hc
    split at hc
    · rename_i h10
      simp only [List.mem_singleton] at hc
      subst hc
      exact digitChar_isDigit h10
    · rcases List.mem_append.mp hc with h1 | h1
      · exact ih _ c h1
      · simp only [List.mem_singleton] at h1
        subst h1
        exact digitChar_isDigit (Nat.mod_lt _ (by norm_num))

theorem natDecimal_digits (n : Nat) : ∀ c ∈ natDecimal n, c.isDigit = true :=
  natDecimalAux_digits (n + 1) n

theorem padDigits_digits (p x : Nat) : ∀ c ∈ padDigits p x, c.isDigit = true := by
  intro c hc
  simp only [padDigits, List.mem_map, List.mem_range] at hc
  obtain ⟨k, -, hk⟩ := hc
  rw [← hk]
  exact digitChar_isDigit (Nat.mod_lt _ (by norm_num))

theorem padDigits_length (p x : Nat) : (padDigits p x).length = p := by
  simp [padDigits]

theorem isDigit_bne {c a : Char} (h : c.isDigit = true) (ha : a.isDigit = false) :
    (c != a) = true := by
  rw [bne_iff_ne]
  intro he
  subst he
  rw [h] at ha
  cases ha

theorem dropWhile_append_stop {p : Char → Bool} :
    ∀ (l : List Char) (a : Char) (r : List Char), (∀ c ∈ l, p c = true) →
      p a = false → List.dropWhile p (l ++ a :: r) = a :: r := by
  intro l
  induction l with
  | nil =>
    intro a r _ ha
    simp [List.dropWhile_cons, ha]
  | cons b l ih =>
    intro a r hl ha
    rw [List.cons_append, List.dropWhile_cons,
      if_pos (hl b (List.mem_cons_self b l))]
    exact ih a r (fun c hc => hl c (List.mem_cons_of_mem b hc)) ha

theorem takeWhile_append_stop {p : Char → Bool} :
    ∀ (l : List Char) (a : Char) (r : List Char), (∀ c ∈ l, p c = true) →
      p a = false → List.takeWhile p (l ++ a :: r) = l := by
  intro l
  induction l with
  | nil =>
    intro a r _ ha
    simp [List.takeWhile_cons, ha]
  | cons b l ih =>
    intro a r hl ha
    rw [List.cons_append, List.takeWhile_cons,
      if_pos (hl b (List.mem_cons_self b l))]
    rw [ih a r (fun c hc => hl c (List.mem_cons_of_mem b hc)) ha]

/-- C4: for every magnitude below `1024 ^ 7` the loop selects exactly the
smallest unit index `u ≤ 6` whose next-unit shift collapses the magnitude to
zero — equivalently the smallest `u` with `i < 1024 ^ (u + 1)` — and the
rendered string carries the `u`-th unit name of the table. -/
theorem C4_unit_selection (i p : Nat) (h : i < 1024 ^ 7) :
    unitIdx i = some (specSmallestUnit i) ∧
    i >>> (10 * (specSmallestUnit i + 1)) = 0 ∧
    (∀ w, w < specSmallestUnit i → i >>> (10 * (w + 1)) ≠ 0) ∧
    i < 1024 ^ (specSmallestUnit i + 1) ∧
    (∀ w, w < specSmallestUnit i → 1024 ^ (w + 1) ≤ i) ∧
    specSmallestUnit i ≤ 6 ∧
    bytecount_format i p =
      some (renderValue i p (specSmallestUnit i) ++
        ' ' :: unitsList.getD (specSmallestUnit i) []) := by
  refine ⟨unitIdx_eq_spec i h, ?_, ?_, specSmallestUnit_lt i h,
    specSmallestUnit_least i, specSmallestUnit_le i, ?_⟩
  · rw [shiftr_eq_zero_iff, ← pow1024]
    exact specSmallestUnit_lt i h
  · intro w hw
    rw [Ne, shiftr_eq_zero_iff, ← pow1024]
    exact fun hlt => absurd hlt (not_lt.mpr (specSmallestUnit_least i w hw))
  · unfold bytecount_format
    rw [unitIdx_eq_spec i h]

theorem C4_witness :
    unitIdx 5000 = some (specSmallestUnit 5000) ∧
    (5000 : Nat) >>> (10 * (specSmallestUnit 5000 + 1)) = 0 ∧
    bytecount_format 5000 0 =
      some (renderValue 5000 0 (specSmallestUnit 5000) ++
        ' ' :: unitsList.getD (specSmallestUnit 5000) []) :=
  ⟨(C4_unit_selection 5000 0 (by norm_num)).1,
    (C4_unit_selection 5000 0 (by norm_num)).2.1,
    (C4_unit_selection 5000 0 (by norm_num)).2.2.2.2.2.2⟩

/-- C5: at precision 0 the displayed value is the magnitude shifted right by
`10 * u` bits, rendered as a plain whole number, and in particular 0, 1024
and 1048576 bytes render as 0 bytes, 1 KiB and 1 MiB. -/
theorem C5_precision_zero (i : Nat) (h : i < 1024 ^ 7) :
    bytecount_format i 0 =
      some (natDecimal (i >>> (10 * specSmallestUnit i)) ++
        ' ' :: unitsList.getD (specSmallestUnit i) []) ∧
    bytecount_format 0 0 = some "0 bytes".toList ∧
    bytecount_format 1024 0 = some "1 KiB".toList ∧
    bytecount_format 1048576 0 = some "1 MiB".toList := by
  refine ⟨?_, by decide, by decide, by decide⟩
  unfold bytecount_format
  rw [unitIdx_eq_spec i h]
  simp [renderValue]

theorem C5_witness :
    bytecount_format 0 0 =
      some (natDecimal ((0 : Nat) >>> (10 * specSmallestUnit 0)) ++
        ' ' :: unitsList.getD (specSmallestUnit 0) []) ∧
    bytecount_format 0 0 = some "0 bytes".toList ∧
    bytecount_format 1024 0 = some "1 KiB".toList ∧
    bytecount_format 1048576 0 = some "1 MiB".toList :=
  C5_precision_zero 0 (by norm_num)

/-- C6: at positive precision the displayed value is the exact quotient of
the magnitude by `1024 ^ u` (which is what the f64 division computes for
magnitudes below `2 ^ 53`), rendered with exactly `precision` fractional
digits, and in particular 1536 bytes at precision 1 render as 1.5 KiB. -/
theorem C6_precision_positive (i p : Nat) (hp : 0 < p) (_h53 : i < 2 ^ 53)
    (h : i < 1024 ^ 7) :
    bytecount_format i p =
      some (fixedDecimal p i (2 ^ (10 * specSmallestUnit i)) ++
        ' ' :: unitsList.getD (specSmallestUnit i) []) ∧
    (fracDigits (bytecount_format i p)).length = p ∧
    bytecount_format 1536 1 = some "1.5 KiB".toList := by
  have h1 : bytecount_format i p =
      some (fixedDecimal p i (2 ^ (10 * specSmallestUnit i)) ++
        ' ' :: unitsList.getD (specSmallestUnit i) []) := by
    unfold bytecount_format
    rw [unitIdx_eq_spec i h]
    simp [renderValue, Nat.pos_iff_ne_zero.mp hp]
  refine ⟨h1, ?_, by decide⟩
  rw [h1]
  unfold fracDigits fixedDecimal
  simp only [Option.getD_some, List.cons_append, List.append_assoc]
  rw [dropWhile_append_stop _ '.' _
    (fun c hc => isDigit_bne (natDecimal_digits _ c hc) (by decide))
    (by decide)]
  simp only [List.drop_succ_cons, List.drop_zero]
  rw [takeWhile_append_stop _ ' ' _
    (fun c hc => isDigit_bne (padDigits_digits _ _ c hc) (by decide))
    (by decide)]
  exact padDigits_length _ _

theorem C6_witness :
    bytecount_format 1536 1 =
      some (fixedDecimal 1 1536 (2 ^ (10 * specSmallestUnit 1536)) ++
        ' ' :: unitsList.getD (specSmallestUnit 1536) []) ∧
    (fracDigits (bytecount_format 1536 1)).length = 1 ∧
    bytecount_format 1536 1 = some "1.5 KiB".toList :=
  C6_precision_positive 1536 1 (by norm_num) (by norm_num) (by norm_num)

/-- C7: for every magnitude of at least `1024 ^ 7` no unit satisfies the
selection predicate and the function never returns a string: the loop falls
through to the unconditional panic, an unrecoverable fault (`none`), for
every precision. -/
theorem C7_out_of_range (i p : Nat) (h : 1024 ^ 7 ≤ i) :
    bytecount_format i p = none := by
  unfold bytecount_format
  rw [unitIdx_none i h]

theorem C7_witness : bytecount_format (1024 ^ 7) 0 = none :=
  C7_out_of_range (1024 ^ 7) 0 (le_refl _)

/-- C9: at the `u64` instantiation, every magnitude of at least `2 ^ 60`
defeats the checks for unit indices 0 through 5, so the loop reaches index 6
and evaluates a shift by 70 on a 64-bit operand; masked to a shift by 6 it
leaves a nonzero value, so the loop falls through to the final panic (in
debug mode the shift overflow itself aborts).  The function therefore never
returns normally on these inputs, although they all lie below `1024 ^ 7`
(as the wide-width model's successful result witnesses). -/
theorem C9_u64_shift_overflow (i p : Nat) (h1 : 2 ^ 60 ≤ i) (h2 : i < 2 ^ 64) :
    bytecount_format_u64 i p = none ∧ i < 1024 ^ 7 ∧
    (bytecount_format i p).isSome = true := by
  have h7 : i < 1024 ^ 7 := by
    norm_num at h2 ⊢
    omega
  refine ⟨?_, h7, ?_⟩
  · unfold bytecount_format_u64
    have hnone : findUnit64 i [0, 1, 2, 3, 4, 5, 6] = none := by
      simp only [findUnit64, shr64, shiftr_eq_zero_iff]
      norm_num at h1 ⊢
      split_ifs <;> first | rfl | omega
    rw [hnone]
  · unfold bytecount_format
    rw [unitIdx_eq_spec i h7]
    rfl

theorem C9_witness :
    bytecount_format_u64 (2 ^ 60) 0 = none ∧ (2 : Nat) ^ 60 < 1024 ^ 7 ∧
    (bytecount_format (2 ^ 60) 0).isSome = true :=
  C9_u64_shift_overflow (2 ^ 60) 0 (le_refl _) (by norm_num)

end Mirafetch
